import Mathlib

/-!
Verification development for the suspend/resume execution model of the
rust-async-await-course-example repository.

The repository contains demo async routines (src/src/lib.rs).  The
specification documents the minimal cooperative execution core those
routines rely on: tasks are explicit state machines with a resume
operation returning Suspended / Completed / Failed, driven by a
single-threaded executor with virtual time, plus a join combinator.
Here each demo routine is embedded as an explicit state machine, and the
executor and join combinator are modelled from the specification (the
originals live in the tokio runtime, outside this repository).
-/

deriving instance DecidableEq for Except

/-- Result of one `resume` call of a task: either a timed suspension
request (wake after `d` time units) or a terminal result. -/
inductive Poll (ε α : Type) where
  | pending (d : Nat)
  | ready (r : Except ε α)
deriving DecidableEq

/-- A task state machine: an initial state and a resume operation.
`resume` runs one segment: it returns the successor state, the lines the
segment prints (observable side effects), and the poll outcome. -/
structure TaskSM (σ ε α : Type) where
  init : σ
  resume : σ → σ × List String × Poll ε α

/-- Outcome of running one task to completion: terminal result, virtual
completion time, printed trace, and the number of Suspended outcomes
observed before the terminal one. -/
structure RunResult (ε α : Type) where
  result : Except ε α
  finishTime : Nat
  trace : List String
  suspends : Nat
deriving DecidableEq

/-- Modelled from the spec: the single-task run loop of the cooperative
executor (missing from src/, it is the tokio runtime there).  With one
task the pending set holds at most that task, so on suspension virtual
time advances straight to the wake deadline.  Fuel bounds the number of
resume calls; `none` means the fuel ran out. -/
def runFrom (t : TaskSM σ ε α) : Nat → σ → Nat → Option (RunResult ε α)
  | 0, _, _ => none
  | fuel + 1, s, time =>
    match t.resume s with
    | (s', out, Poll.pending d) =>
      match runFrom t fuel s' (time + d) with
      | none => none
      | some res => some ⟨res.result, res.finishTime, out ++ res.trace, res.suspends + 1⟩
    | (_, out, Poll.ready r) => some ⟨r, time, out, 0⟩

/-- Run a task from its initial state at virtual time 0. -/
def run (t : TaskSM σ ε α) (fuel : Nat) : Option (RunResult ε α) :=
  runFrom t fuel t.init 0

/-- Observable output after the first `n` resume calls of a task.
With `n = 0` the task has been constructed but never resumed. -/
def observedAfter (t : TaskSM σ ε α) : Nat → σ → List String
  | 0, _ => []
  | n + 1, s =>
    match t.resume s with
    | (s', out, _) => out ++ observedAfter t n s'

/-- A sequential suspendable program: a list of segments, each printing
some lines and then suspending for a delay, followed by a final segment
printing `finalOut` and terminating with `result`.  This is the shape of
every demo routine without branching. -/
structure SeqProg (ε α : Type) where
  steps : List (List String × Nat)
  finalOut : List String
  result : Except ε α
deriving DecidableEq

/-- Resume one segment of a sequential program: the state is the program
with the already-executed segments removed. -/
def seqResume (p : SeqProg ε α) : SeqProg ε α × List String × Poll ε α :=
  match p.steps with
  | [] => (p, p.finalOut, Poll.ready p.result)
  | (out, d) :: rest => (⟨rest, p.finalOut, p.result⟩, out, Poll.pending d)

/-- The task state machine of a sequential program. -/
def seqSM (p : SeqProg ε α) : TaskSM (SeqProg ε α) ε α :=
  ⟨p, seqResume⟩

/-- Total suspension delay of a sequential program. -/
def delaySum (p : SeqProg ε α) : Nat :=
  (p.steps.map Prod.snd).sum

/-- Full printed trace of a sequential program. -/
def traceOf (p : SeqProg ε α) : List String :=
  (p.steps.map Prod.fst).flatten ++ p.finalOut

/-- `async_state_machine_example` (src/src/lib.rs lines 13-25): one print,
one 100 ms sleep, then the completion print. -/
def async_state_machine_example : SeqProg String Unit :=
  ⟨[(["  Starting async state machine..."], 100)],
   ["  Completed"], Except.ok ()⟩

/-- The general one-yield task of the spec: exactly one `yield_for d`
and then a terminal Completed segment. -/
def oneYieldProg (d : Nat) : SeqProg String Unit :=
  ⟨[([], d)], [], Except.ok ()⟩

/-- `multiple_awaits_example` (src/src/lib.rs lines 38-57): three prints
interleaved with three 50 ms sleeps. -/
def multiple_awaits_example : SeqProg String Unit :=
  ⟨[(["  Starting task with multiple awaits...", "  Awaiting first operation..."], 50),
    (["  First operation completed", "  Awaiting second operation..."], 50),
    (["  Second operation completed", "  Awaiting third operation..."], 50)],
   ["  Third operation completed", "  All operations finished!"],
   Except.ok ()⟩

/-- The locals of `variable_scoping_example` whose live range crosses its
suspension point: exactly `important_value`.  The block-scoped
`temporary_value` is consumed before the await and has no field here. -/
structure VSCaptured where
  important_value : Nat
deriving DecidableEq

/-- Segment positions of `variable_scoping_example`. -/
inductive VSState where
  | start
  | afterAwait (cap : VSCaptured)
deriving DecidableEq

/-- `variable_scoping_example` (src/src/lib.rs lines 68-90): sets
`important_value = 42`, prints and drops a block-scoped temporary,
sleeps 50 ms, then reads `important_value` back and doubles it. -/
def variable_scoping_example : TaskSM VSState String Unit :=
  ⟨VSState.start, fun s =>
    match s with
    | VSState.start =>
      (VSState.afterAwait ⟨42⟩,
       ["  Demonstrating variable scoping across awaits...",
        "  Before await: important_value = " ++ Nat.repr 42,
        "  Temporary value: temporary"],
       Poll.pending 50)
    | VSState.afterAwait cap =>
      (VSState.afterAwait cap,
       ["  After await: important_value = " ++ Nat.repr cap.important_value,
        "  Computed result: " ++ Nat.repr (cap.important_value * 2)],
       Poll.ready (Except.ok ()))⟩

/-- Segment positions of `complex_async_function`; the processed string
is captured across the finalization sleep. -/
inductive CFState where
  | start
  | afterValidation
  | afterProcessing
  | afterFinalization (processed : String)
deriving DecidableEq

/-- The line `complex_async_function` prints on entry. -/
def cfHeader (id : Nat) (data : String) : String :=
  "  Processing request with id: " ++ Nat.repr id ++ ", data: " ++ data

/-- The processed string `complex_async_function` builds after its second
sleep. -/
def cfProcessed (id : Nat) (data : String) : String :=
  "Processed(id=" ++ Nat.repr id ++ ", data=" ++ data ++ ")"

/-- `complex_async_function` (src/src/lib.rs lines 99-121): print header,
sleep 30 ms (validation), fail if `id = 0`, sleep 30 ms (processing),
build the processed string, sleep 30 ms (finalization), return it. -/
def complex_async_function (id : Nat) (data : String) : TaskSM CFState String String :=
  ⟨CFState.start, fun s =>
    match s with
    | CFState.start =>
      (CFState.afterValidation, [cfHeader id data], Poll.pending 30)
    | CFState.afterValidation =>
      if id = 0 then
        (CFState.afterValidation, [], Poll.ready (Except.error "Invalid ID: cannot be zero"))
      else
        (CFState.afterProcessing, [], Poll.pending 30)
    | CFState.afterProcessing =>
      (CFState.afterFinalization (cfProcessed id data), [], Poll.pending 30)
    | CFState.afterFinalization processed =>
      (CFState.afterFinalization processed, [], Poll.ready (Except.ok processed))⟩

/-- An HTTP response as seen by `fetch_data_from_api`: a status code and
a body. -/
structure HttpResponse where
  status : Nat
  body : String
deriving DecidableEq

/-- `StatusCode.is_success` of the HTTP library: status in 200..=299. -/
def isSuccessStatus (s : Nat) : Bool :=
  decide (200 ≤ s) && decide (s < 300)

/-- `fetch_data_from_api` (src/src/lib.rs lines 129-150).  The network
collaborator is opaque per the spec: `net` is its outcome, either a
transport error or a response.  The function propagates a transport
error, rejects a non-success status with an `HTTP error` message, and
otherwise returns the body; it also prints its narration lines. -/
def fetch_data_from_api (net : Except String HttpResponse) (url : String) :
    List String × Except String String :=
  let header := "  Fetching data from: " ++ url
  match net with
  | Except.error e => ([header], Except.error e)
  | Except.ok resp =>
    if isSuccessStatus resp.status then
      ([header, "  Successfully fetched " ++ Nat.repr resp.body.length ++ " bytes"],
       Except.ok resp.body)
    else
      ([header], Except.error ("HTTP error: " ++ Nat.repr resp.status))

/-- `concurrent_execution_example` (src/src/lib.rs lines 155-186): the
three joined tasks, as sequential programs.  Task `i` sleeps for its
delay (100, 50, 75 ms), prints its completion line and returns `i`. -/
def concurrent_execution_example : List (SeqProg String Nat) :=
  [⟨[([], 100)], ["  Task 1 completed"], Except.ok 1⟩,
   ⟨[([], 50)], ["  Task 2 completed"], Except.ok 2⟩,
   ⟨[([], 75)], ["  Task 3 completed"], Except.ok 3⟩]

/-- Modelled from the spec: status of one child inside the join
combinator (missing from src/, it is `tokio::join!` there): either
waiting with a wake deadline and its remaining program, or terminal. -/
inductive JStat (ε α : Type) where
  | pend (deadline : Nat) (prog : SeqProg ε α)
  | done (r : Except ε α)
deriving DecidableEq

/-- Resume one segment of a waiting child at the current virtual time:
the same segment semantics as `seqResume`, with the wake deadline made
absolute. -/
def resumeChild (time : Nat) (p : SeqProg ε α) : JStat ε α :=
  match p.steps with
  | [] => JStat.done p.result
  | (_, d) :: rest => JStat.pend (time + d) ⟨rest, p.finalOut, p.result⟩

/-- Modelled from the spec: one pass of the join executor over the
children at the current time, resuming every child whose deadline has
passed, in child-index (FIFO insertion) order.  The boolean reports
whether any child was resumed. -/
def passOnce (time : Nat) : List (JStat ε α) → List (JStat ε α) × Bool
  | [] => ([], false)
  | JStat.done r :: rest =>
    let pr := passOnce time rest
    (JStat.done r :: pr.1, pr.2)
  | JStat.pend dl p :: rest =>
    if dl ≤ time then
      let pr := passOnce time rest
      (resumeChild time p :: pr.1, true)
    else
      let pr := passOnce time rest
      (JStat.pend dl p :: pr.1, pr.2)

/-- Whether every child is terminal. -/
def allDone : List (JStat ε α) → Bool
  | [] => true
  | JStat.done _ :: rest => allDone rest
  | JStat.pend _ _ :: _ => false

/-- Minimum wake deadline among the waiting children, if any. -/
def minDeadline : List (JStat ε α) → Option Nat
  | [] => none
  | JStat.done _ :: rest => minDeadline rest
  | JStat.pend dl _ :: rest =>
    match minDeadline rest with
    | none => some dl
    | some m => some (min dl m)

/-- Modelled from the spec: the run loop of the join executor.  While
some child is not terminal, resume the ready children; if none is ready,
advance virtual time to the minimum pending deadline.  Returns the
completion time and the final child statuses, or `none` if the fuel ran
out. -/
def joinLoop : Nat → Nat → List (JStat ε α) → Option (Nat × List (JStat ε α))
  | 0, _, _ => none
  | fuel + 1, time, cs =>
    if allDone cs then some (time, cs)
    else
      let pr := passOnce time cs
      if pr.2 then joinLoop fuel time pr.1
      else
        match minDeadline cs with
        | some t2 => joinLoop fuel t2 cs
        | none => none

/-- Remaining resume calls a child status can consume. -/
def statR : JStat ε α → Nat
  | JStat.done _ => 0
  | JStat.pend _ p => p.steps.length + 1

/-- Remaining resume calls of all children together. -/
def Rof (cs : List (JStat ε α)) : Nat :=
  (cs.map statR).sum

/-- The terminal status a child status is bound to reach: a waiting
child with remaining program `p` ends as `done p.result`. -/
def finalizeStat : JStat ε α → JStat ε α
  | JStat.done r => JStat.done r
  | JStat.pend _ p => JStat.done p.result

/-- Pointwise `finalizeStat`. -/
def finalOf (cs : List (JStat ε α)) : List (JStat ε α) :=
  cs.map finalizeStat

/-- Initial statuses of a join: every child ready at time 0 with its
whole program, in child-index order. -/
def joinInit (progs : List (SeqProg ε α)) : List (JStat ε α) :=
  progs.map (fun p => JStat.pend 0 p)

/-- Run the join of the given children to completion, with enough fuel
for every resume plus the interleaved time advances. -/
def joinRun (progs : List (SeqProg ε α)) : Option (Nat × List (JStat ε α)) :=
  joinLoop (2 * Rof (joinInit progs) + 1) 0 (joinInit progs)

/-- Terminal result recorded in a child status. -/
def statResult : JStat ε α → Except ε α
  | JStat.done r => r
  | JStat.pend _ p => p.result

/-- Modelled from the spec: the outcome of a join — the ordered list of
child success values if every child succeeded, otherwise the first
failure in child-index order. -/
def combineResults : List (Except ε α) → Except ε (List α)
  | [] => Except.ok []
  | Except.error e :: _ => Except.error e
  | Except.ok v :: rest =>
    match combineResults rest with
    | Except.error e => Except.error e
    | Except.ok vs => Except.ok (v :: vs)

/-- Overall outcome of a join run. -/
def joinOutcome (progs : List (SeqProg ε α)) : Option (Except ε (List α)) :=
  (joinRun progs).map (fun tc => combineResults (tc.2.map statResult))

/-- A join of three one-yield children where child 2 fails and the
siblings succeed, as in the spec test property for joins. -/
def joinFailureDemo : List (SeqProg String Nat) :=
  [⟨[([], 10)], [], Except.ok 1⟩,
   ⟨[([], 20)], [], Except.error "boom"⟩,
   ⟨[([], 30)], [], Except.ok 3⟩]

theorem runFrom_seq (q : SeqProg ε α) (fo : List String) (r : Except ε α) :
    ∀ (steps : List (List String × Nat)) (time : Nat),
      runFrom (seqSM q) (steps.length + 1) (⟨steps, fo, r⟩ : SeqProg ε α) time =
        some ⟨r, time + delaySum ⟨steps, fo, r⟩, traceOf ⟨steps, fo, r⟩, steps.length⟩ := by
  intro steps
  induction steps with
  | nil =>
    intro time
    simp [runFrom, seqSM, seqResume, delaySum, traceOf]
  | cons hd tl ih =>
    intro time
    obtain ⟨out, d⟩ := hd
    have h1 : runFrom (seqSM q) (((out, d) :: tl).length + 1)
        (⟨(out, d) :: tl, fo, r⟩ : SeqProg ε α) time =
        match runFrom (seqSM q) (tl.length + 1) (⟨tl, fo, r⟩ : SeqProg ε α) (time + d) with
        | none => none
        | some res => some ⟨res.result, res.finishTime, out ++ res.trace, res.suspends + 1⟩ := rfl
    rw [h1, ih]
    simp [delaySum, traceOf, Nat.add_assoc]

/-- C1: `complex_async_function` with `id = 0` returns
`Failed(ValidationError)` for every data string, after only the
validation suspension — no later segment runs (one suspension, and the
trace holds only the entry line); with `id = 42`, `data = "test"` it
returns `Completed("Processed(id=42, data=test)")`. -/
theorem complex_async_validation_and_success :
    (∀ data : String, ∃ res, run (complex_async_function 0 data) 5 = some res ∧
        res.result = Except.error "Invalid ID: cannot be zero" ∧
        res.suspends = 1 ∧ res.trace = [cfHeader 0 data]) ∧
    run (complex_async_function 42 "test") 5 =
      some ⟨Except.ok "Processed(id=42, data=test)", 90, [cfHeader 42 "test"], 3⟩ := by
  constructor
  · intro data
    exact ⟨⟨Except.error "Invalid ID: cannot be zero", 30, [cfHeader 0 data], 1⟩,
      rfl, rfl, rfl, rfl⟩
  · rfl

/-- C10: for every `id ≠ 0` and every data string,
`complex_async_function` completes with exactly
`Processed(id=<id>, data=<data>)`; being a pure function of the model,
the same inputs give the same result on every run. -/
theorem complex_async_success_general (id : Nat) (data : String) (h : id ≠ 0) :
    run (complex_async_function id data) 5 =
      some ⟨Except.ok (cfProcessed id data), 90, [cfHeader id data], 3⟩ := by
  cases id with
  | zero => exact absurd rfl h
  | succ n => rfl

theorem complex_async_success_general_witness :
    run (complex_async_function 7 "x") 5 =
      some ⟨Except.ok (cfProcessed 7 "x"), 90, [cfHeader 7 "x"], 3⟩ :=
  complex_async_success_general 7 "x" (by decide)

/-- C4: for every task, if a segment short-circuits to an error the
executor treats the task as terminal immediately: the caller observes
exactly that error, virtual time does not advance further, no later
segment output appears and no further suspension is observed. -/
theorem error_short_circuits (t : TaskSM σ ε α) (s s' : σ) (out : List String) (e : ε)
    (fuel time : Nat) (h : t.resume s = (s', out, Poll.ready (Except.error e))) :
    runFrom t (fuel + 1) s time = some ⟨Except.error e, time, out, 0⟩ := by
  simp [runFrom, h]

theorem error_short_circuits_witness :
    runFrom (complex_async_function 0 "test") 1 CFState.afterValidation 30 =
      some ⟨Except.error "Invalid ID: cannot be zero", 30, [], 0⟩ :=
  error_short_circuits (complex_async_function 0 "test") CFState.afterValidation
    CFState.afterValidation [] "Invalid ID: cannot be zero" 0 30 rfl

/-- C6: a sequential task with N suspension points yields exactly N
Suspended outcomes before its terminal outcome; in particular
`multiple_awaits_example` yields exactly 3 before Completed. -/
theorem seq_task_suspend_count :
    (∀ (ε α : Type) (p : SeqProg ε α),
        ∃ res, run (seqSM p) (p.steps.length + 1) = some res ∧
          res.suspends = p.steps.length ∧ res.result = p.result) ∧
    (∃ res, run (seqSM multiple_awaits_example) 4 = some res ∧
        res.suspends = 3 ∧ res.result = Except.ok ()) := by
  constructor
  · intro ε α p
    obtain ⟨steps, fo, r⟩ := p
    exact ⟨_, runFrom_seq ⟨steps, fo, r⟩ fo r steps 0, rfl, rfl⟩
  · exact ⟨⟨Except.ok (), 150,
      ["  Starting task with multiple awaits...", "  Awaiting first operation...",
       "  First operation completed", "  Awaiting second operation...",
       "  Second operation completed", "  Awaiting third operation...",
       "  Third operation completed", "  All operations finished!"], 3⟩, rfl, rfl, rfl⟩

/-- C8: for every duration D ≥ 0, a task with exactly one `yield_for D`
followed by a terminal Completed segment completes with virtual time at
least D at completion, after exactly one yield (so D = 0 is legal:
yield once, immediately eligible again); `async_state_machine_example`
is the D = 100 instance. -/
theorem one_yield_completes_after_delay :
    (∀ D : Nat, ∃ res, run (seqSM (oneYieldProg D)) 2 = some res ∧
        res.result = Except.ok () ∧ D ≤ res.finishTime ∧ res.suspends = 1) ∧
    (∃ res, run (seqSM async_state_machine_example) 2 = some res ∧
        res.result = Except.ok () ∧ 100 ≤ res.finishTime) := by
  constructor
  · intro D
    refine ⟨_, runFrom_seq (oneYieldProg D) [] (Except.ok ()) [([], D)] 0, rfl, ?_, rfl⟩
    simp [delaySum]
  · exact ⟨⟨Except.ok (), 100, ["  Starting async state machine...", "  Completed"], 1⟩,
      rfl, rfl, by decide⟩

/-- C9: constructing a task and never running it has no observable
effect: after zero resume calls the observed output of any task is
empty, while the very first resume of `complex_async_function` already
prints, so effects are genuinely deferred to the first resume. -/
theorem construction_has_no_effect :
    (∀ (σ ε α : Type) (t : TaskSM σ ε α), observedAfter t 0 t.init = []) ∧
    observedAfter (complex_async_function 0 "x") 1 CFState.start ≠ [] := by
  exact ⟨fun σ ε α t => rfl, by decide⟩

/-- C7: in `variable_scoping_example` the persisted state across the
suspension is exactly the record with `important_value = 42` (the
block-scoped temporary has no field in `VSCaptured`), the value reads
back unchanged after the await, and the value computed from it is 84. -/
theorem captured_state_across_suspension :
    (variable_scoping_example.resume VSState.start).1 = VSState.afterAwait ⟨42⟩ ∧
    (∃ res, run variable_scoping_example 2 = some res ∧
        res.result = Except.ok () ∧
        "  After await: important_value = 42" ∈ res.trace ∧
        "  Computed result: 84" ∈ res.trace) := by
  refine ⟨rfl, ⟨Except.ok (), 50,
    ["  Demonstrating variable scoping across awaits...",
     "  Before await: important_value = 42",
     "  Temporary value: temporary",
     "  After await: important_value = 42",
     "  Computed result: 84"], 1⟩, by decide, rfl, by decide, by decide⟩

/-- C5: for every URL and every outcome of the opaque network
collaborator, `fetch_data_from_api` returns the body exactly when the
transport succeeded with a success status; a transport failure or a
non-success status yields an error, never a success value. -/
theorem fetch_result_cases (net : Except String HttpResponse) (url : String) :
    (∀ b, (fetch_data_from_api net url).2 = Except.ok b →
        ∃ resp, net = Except.ok resp ∧ isSuccessStatus resp.status = true ∧ b = resp.body) ∧
    (∀ resp, net = Except.ok resp → isSuccessStatus resp.status = false →
        (fetch_data_from_api net url).2 = Except.error ("HTTP error: " ++ Nat.repr resp.status)) ∧
    (∀ e, net = Except.error e → (fetch_data_from_api net url).2 = Except.error e) := by
  cases net with
  | error e =>
    refine ⟨?_, ?_, ?_⟩
    · intro b hb
      simp [fetch_data_from_api] at hb
    · intro resp hresp
      simp at hresp
    · intro e2 he
      cases he
      rfl
  | ok resp =>
    by_cases hs : isSuccessStatus resp.status = true
    · refine ⟨?_, ?_, ?_⟩
      · intro b hb
        refine ⟨resp, rfl, hs, ?_⟩
        simp [fetch_data_from_api, hs] at hb
        exact hb.symm
      · intro resp2 h2 hfalse
        cases h2
        rw [hs] at hfalse
        cases hfalse
      · intro e he
        simp at he
    · have hs2 : isSuccessStatus resp.status = false := by
        revert hs
        cases isSuccessStatus resp.status <;> simp
      refine ⟨?_, ?_, ?_⟩
      · intro b hb
        simp [fetch_data_from_api, hs2] at hb
      · intro resp2 h2 hfalse
        cases h2
        simp [fetch_data_from_api, hs2]
      · intro e he
        simp at he

theorem fetch_result_cases_witness :
    ∃ resp, (Except.ok (⟨200, "hello"⟩ : HttpResponse) : Except String HttpResponse) =
        Except.ok resp ∧ isSuccessStatus resp.status = true ∧ "hello" = resp.body :=
  (fetch_result_cases (Except.ok ⟨200, "hello"⟩) "https://api.github.com").1 "hello" (by decide)

theorem finalizeStat_resumeChild (time : Nat) (p : SeqProg ε α) :
    finalizeStat (resumeChild time p) = JStat.done p.result := by
  obtain ⟨steps, fo, r⟩ := p
  cases steps with
  | nil => rfl
  | cons hd tl =>
    obtain ⟨o, d⟩ := hd
    rfl

theorem passOnce_finalOf (time : Nat) (cs : List (JStat ε α)) :
    finalOf (passOnce time cs).1 = finalOf cs := by
  induction cs with
  | nil => rfl
  | cons c rest ih =>
    cases c with
    | done r =>
      simp only [passOnce, finalOf, List.map_cons] at *
      rw [ih]
    | pend dl p =>
      by_cases h : dl ≤ time
      · simp only [passOnce, if_pos h, finalOf, List.map_cons] at *
        rw [ih, finalizeStat_resumeChild]
        rfl
      · simp only [passOnce, if_neg h, finalOf, List.map_cons] at *
        rw [ih]

theorem statR_resumeChild (time : Nat) (p : SeqProg ε α) :
    statR (resumeChild time p) ≤ p.steps.length := by
  obtain ⟨steps, fo, r⟩ := p
  cases steps with
  | nil => exact Nat.le_refl 0
  | cons hd tl =>
    obtain ⟨o, d⟩ := hd
    exact Nat.le_refl _

theorem passOnce_Rof_le (time : Nat) (cs : List (JStat ε α)) :
    Rof (passOnce time cs).1 ≤ Rof cs := by
  induction cs with
  | nil => exact Nat.le_refl 0
  | cons c rest ih =>
    cases c with
    | done r =>
      simp only [passOnce, Rof, List.map_cons, List.sum_cons] at *
      exact Nat.add_le_add_left ih _
    | pend dl p =>
      by_cases h : dl ≤ time
      · simp only [passOnce, if_pos h, Rof, List.map_cons, List.sum_cons] at *
        have h1 : statR (resumeChild time p) ≤ statR (JStat.pend dl p) :=
          Nat.le_trans (statR_resumeChild time p) (Nat.le_succ _)
        exact Nat.add_le_add h1 ih
      · simp only [passOnce, if_neg h, Rof, List.map_cons, List.sum_cons] at *
        exact Nat.add_le_add_left ih _

theorem passOnce_Rof_lt (time : Nat) (cs : List (JStat ε α))
    (h : (passOnce time cs).2 = true) :
    Rof (passOnce time cs).1 < Rof cs := by
  induction cs with
  | nil => cases h
  | cons c rest ih =>
    cases c with
    | done r =>
      simp only [passOnce] at h
      have := ih h
      simp only [passOnce, Rof, List.map_cons, List.sum_cons] at *
      exact Nat.add_lt_add_left this _
    | pend dl p =>
      by_cases hr : dl ≤ time
      · have h1 : statR (resumeChild time p) < statR (JStat.pend dl p) :=
          Nat.lt_succ_of_le (statR_resumeChild time p)
        have h2 := passOnce_Rof_le time rest
        simp only [passOnce, if_pos hr, Rof, List.map_cons, List.sum_cons] at *
        exact Nat.add_lt_add_of_lt_of_le h1 h2
      · simp only [passOnce, if_neg hr] at h
        have := ih h
        simp only [passOnce, if_neg hr, Rof, List.map_cons, List.sum_cons] at *
        exact Nat.add_lt_add_left this _

theorem passOnce_eq_of_false (time : Nat) (cs : List (JStat ε α))
    (h : (passOnce time cs).2 = false) :
    (passOnce time cs).1 = cs := by
  induction cs with
  | nil => rfl
  | cons c rest ih =>
    cases c with
    | done r =>
      simp only [passOnce] at h ⊢
      rw [ih h]
    | pend dl p =>
      by_cases hr : dl ≤ time
      · simp only [passOnce, if_pos hr] at h
        cases h
      · simp only [passOnce, if_neg hr] at h ⊢
        rw [ih h]

theorem allDone_finalOf (cs : List (JStat ε α)) (h : allDone cs = true) :
    finalOf cs = cs := by
  induction cs with
  | nil => rfl
  | cons c rest ih =>
    cases c with
    | done r =>
      simp only [allDone] at h
      have h2 := ih h
      simp only [finalOf] at h2
      simp only [finalOf, List.map_cons, finalizeStat]
      rw [h2]
    | pend dl p => cases h

theorem minDeadline_of_not_allDone (cs : List (JStat ε α)) (h : allDone cs = false) :
    ∃ m, minDeadline cs = some m := by
  induction cs with
  | nil => cases h
  | cons c rest ih =>
    cases c with
    | done r =>
      simp only [allDone] at h
      obtain ⟨m, hm⟩ := ih h
      exact ⟨m, by simp [minDeadline, hm]⟩
    | pend dl p =>
      cases hrest : minDeadline rest with
      | none => exact ⟨dl, by simp [minDeadline, hrest]⟩
      | some m => exact ⟨min dl m, by simp [minDeadline, hrest]⟩

theorem Rof_pos (cs : List (JStat ε α)) (h : allDone cs = false) : 1 ≤ Rof cs := by
  induction cs with
  | nil => cases h
  | cons c rest ih =>
    cases c with
    | done r =>
      simp only [allDone] at h
      simp only [Rof, List.map_cons, List.sum_cons, statR]
      exact Nat.le_trans (ih h) (Nat.le_add_left _ _)
    | pend dl p =>
      simp only [Rof, List.map_cons, List.sum_cons, statR]
      exact Nat.le_trans (Nat.succ_le_succ (Nat.zero_le _)) (Nat.le_add_right _ _)

theorem minDeadline_ready (cs : List (JStat ε α)) (m : Nat)
    (h : minDeadline cs = some m) : (passOnce m cs).2 = true := by
  induction cs with
  | nil => cases h
  | cons c rest ih =>
    cases c with
    | done r =>
      simp only [minDeadline] at h
      simp only [passOnce]
      exact ih h
    | pend dl p =>
      simp only [minDeadline] at h
      cases hrest : minDeadline rest with
      | none =>
        rw [hrest] at h
        have hdl : dl = m := by
          cases h
          rfl
        subst hdl
        simp [passOnce]
      | some mr =>
        rw [hrest] at h
        have hmin : min dl mr = m := by
          cases h
          rfl
        by_cases hdl : dl ≤ m
        · simp [passOnce, if_pos hdl]
        · have hm2 : m = mr := by
            rcases Nat.le_total dl mr with hc | hc
            · rw [min_eq_left hc] at hmin
              exact absurd (le_of_eq hmin) hdl
            · rw [min_eq_right hc] at hmin
              exact hmin.symm
          subst hm2
          have := ih hrest
          simp [passOnce, if_neg hdl, this]

theorem joinLoop_total (R : Nat) :
    ∀ (cs : List (JStat ε α)) (time fuel : Nat), Rof cs = R → 2 * R + 1 ≤ fuel →
      ∃ T, joinLoop fuel time cs = some (T, finalOf cs) := by
  induction R using Nat.strong_induction_on with
  | _ R ih =>
    intro cs time fuel hR hfuel
    cases fuel with
    | zero => omega
    | succ f =>
      by_cases hd : allDone cs = true
      · exact ⟨time, by simp [joinLoop, hd, allDone_finalOf cs hd]⟩
      · have hd2 : allDone cs = false := by
          revert hd
          cases allDone cs <;> simp
        cases hflag : (passOnce time cs).2 with
        | true =>
          have hlt : Rof (passOnce time cs).1 < R := hR ▸ passOnce_Rof_lt time cs hflag
          obtain ⟨T, hT⟩ := ih (Rof (passOnce time cs).1) hlt (passOnce time cs).1
            time f rfl (by omega)
          refine ⟨T, ?_⟩
          simp [joinLoop, hd2, hflag, hT, passOnce_finalOf]
        | false =>
          obtain ⟨m, hm⟩ := minDeadline_of_not_allDone cs hd2
          have hR1 : 1 ≤ R := hR ▸ Rof_pos cs hd2
          cases f with
          | zero => omega
          | succ g =>
            have hflag2 : (passOnce m cs).2 = true := minDeadline_ready cs m hm
            have hlt : Rof (passOnce m cs).1 < R := hR ▸ passOnce_Rof_lt m cs hflag2
            obtain ⟨T, hT⟩ := ih (Rof (passOnce m cs).1) hlt (passOnce m cs).1
              m g rfl (by omega)
            refine ⟨T, ?_⟩
            simp [joinLoop, hd2, hflag, hm, hflag2, hT, passOnce_finalOf]

theorem joinRun_total (progs : List (SeqProg ε α)) :
    ∃ T, joinRun progs = some (T, progs.map (fun p => JStat.done p.result)) := by
  obtain ⟨T, hT⟩ := joinLoop_total (Rof (joinInit progs)) (joinInit progs) 0
    (2 * Rof (joinInit progs) + 1) rfl (Nat.le_refl _)
  refine ⟨T, ?_⟩
  rw [joinRun, hT]
  have hfin : finalOf (joinInit progs) = progs.map (fun p => JStat.done p.result) := by
    simp [finalOf, joinInit, List.map_map, Function.comp, finalizeStat]
  rw [hfin]

theorem combineResults_first_error (l : List (Except ε α)) :
    ∀ (i : Nat) (e : ε) (hi : i < l.length), l.get ⟨i, hi⟩ = Except.error e →
      (∀ j (hj : j < i), ∃ v, l.get ⟨j, Nat.lt_trans hj hi⟩ = Except.ok v) →
      combineResults l = Except.error e := by
  induction l with
  | nil =>
    intro i e hi
    exact absurd hi (by simp)
  | cons x rest ihl =>
    intro i e hi hfail hmin
    cases i with
    | zero =>
      have hx : x = Except.error e := hfail
      rw [hx]
      rfl
    | succ i2 =>
      obtain ⟨v, hv⟩ := hmin 0 (Nat.succ_pos i2)
      have hx : x = Except.ok v := hv
      have hi2 : i2 < rest.length := Nat.lt_of_succ_lt_succ hi
      have hfail2 : rest.get ⟨i2, hi2⟩ = Except.error e := hfail
      have hmin2 : ∀ j (hj : j < i2), ∃ w, rest.get ⟨j, Nat.lt_trans hj hi2⟩ = Except.ok w := by
        intro j hj
        obtain ⟨w, hw⟩ := hmin (j + 1) (Nat.succ_lt_succ hj)
        exact ⟨w, hw⟩
      have hrest := ihl i2 e hi2 hfail2 hmin2
      rw [hx]
      simp [combineResults, hrest]

theorem allDone_map_done (progs : List (SeqProg ε α)) :
    allDone (progs.map (fun p => JStat.done p.result)) = true := by
  induction progs with
  | nil => rfl
  | cons p rest ih => simpa [allDone] using ih

/-- C2: the join of the three tasks of `concurrent_execution_example`
(yields 100, 50, 75; index-based results 1, 2, 3) becomes terminal only
once all three children are terminal, at virtual time 100, and completes
with the children's success values in original child-index order
`[1, 2, 3]`, even though child 2 finished first. -/
theorem join_three_tasks_ordered :
    joinRun concurrent_execution_example =
      some (100, [JStat.done (Except.ok 1), JStat.done (Except.ok 2), JStat.done (Except.ok 3)]) ∧
    joinOutcome concurrent_execution_example = some (Except.ok [1, 2, 3]) := by
  exact ⟨by decide, by decide⟩

/-- C3: for every join of sequential tasks in which the child at index
`i` fails and every earlier child succeeds, the composite run reaches a
terminal state in which every child is terminal carrying its own result
(siblings are not cancelled and run to completion), and the composite
outcome is `Failed` with exactly the failure of the smallest-index
failing child, independent of completion times. -/
theorem join_first_failure_by_index (ε α : Type) (progs : List (SeqProg ε α))
    (i : Nat) (e : ε) (hi : i < progs.length)
    (hfail : (progs.get ⟨i, hi⟩).result = Except.error e)
    (hmin : ∀ j (hj : j < i), ∃ v, (progs.get ⟨j, Nat.lt_trans hj hi⟩).result = Except.ok v) :
    ∃ T, joinRun progs = some (T, progs.map (fun p => JStat.done p.result)) ∧
      joinOutcome progs = some (Except.error e) ∧
      allDone (progs.map (fun p => JStat.done p.result)) = true := by
  obtain ⟨T, hT⟩ := joinRun_total progs
  refine ⟨T, hT, ?_, allDone_map_done progs⟩
  rw [joinOutcome, hT]
  have hmap : (progs.map (fun p => JStat.done p.result)).map statResult =
      progs.map (fun p => p.result) := by
    simp [List.map_map, Function.comp, statResult]
  have hlen : (progs.map (fun p => p.result)).length = progs.length := by simp
  have hget : ∀ (j : Nat) (hj : j < progs.length),
      (progs.map (fun p => p.result)).get ⟨j, hlen ▸ hj⟩ = (progs.get ⟨j, hj⟩).result := by
    intro j hj
    simp
  have hcomb : combineResults (progs.map (fun p => p.result)) = Except.error e := by
    refine combineResults_first_error (progs.map (fun p => p.result)) i e (hlen ▸ hi) ?_ ?_
    · rw [hget i hi] at *
      exact hfail
    · intro j hj
      obtain ⟨v, hv⟩ := hmin j hj
      refine ⟨v, ?_⟩
      rw [hget j (Nat.lt_trans hj hi)] at *
      exact hv
  simp [hmap, hcomb]

theorem join_first_failure_by_index_witness :
    ∃ T, joinRun joinFailureDemo =
        some (T, joinFailureDemo.map (fun p => JStat.done p.result)) ∧
      joinOutcome joinFailureDemo = some (Except.error "boom") ∧
      allDone (joinFailureDemo.map (fun p => JStat.done p.result)) = true :=
  join_first_failure_by_index String Nat joinFailureDemo 1 "boom" (by decide) (by decide)
    (by
      intro j hj
      have hj0 : j = 0 := by omega
      subst hj0
      exact ⟨1, rfl⟩)
